import Mathlib

/-!
Shallow embedding of `transaction_lineage_analyzer.py`: the `Transaction`
record, the `BatchLineage` node, the two-pass lineage build, and the query
and export functions, together with theorems about their behaviour.

Python floats are modelled as rationals (every numeric value appearing in
the properties below is exactly representable); Python dicts are modelled
as insertion-ordered association lists.
-/

/-- A CSV row as handed to `Transaction.__init__`: a finite mapping from
field name to raw string value (an absent key models a missing column). -/
abbrev Row : Type := List (String × String)

/-- `data.get(key, '')` for string-valued fields. -/
def Row.getStr (row : Row) (key : String) : String :=
  (List.lookup key row).getD ""

/-- Digit characters to their value; `none` if any character is not a digit
(`[]` gives `some 0`, emptiness is checked by the callers that need it). -/
def digitsToNat : List Char → Option Nat
  | [] => some 0
  | c :: rest =>
    if c.isDigit then
      (digitsToNat rest).map (fun n => (c.toNat - 48) * 10 ^ rest.length + n)
    else none

/-- Split a character list at the first character satisfying `p`; the second
component is `none` when no such character occurs. -/
def splitOnChar (p : Char → Bool) : List Char → List Char × Option (List Char)
  | [] => ([], none)
  | c :: rest =>
    if p c then ([], some rest)
    else
      let (a, b) := splitOnChar p rest
      (c :: a, b)

/-- Optional leading sign; returns (isNegative, rest). -/
def parseSign : List Char → Bool × List Char
  | '+' :: rest => (false, rest)
  | '-' :: rest => (true, rest)
  | cs => (false, cs)

/-- An unsigned decimal mantissa: digits, optionally with one point, at
least one digit in total. -/
def parseUnsignedDec (cs : List Char) : Option ℚ :=
  let (ip, fp) := splitOnChar (fun c => c = '.') cs
  match fp with
  | none =>
    if ip = [] then none else (digitsToNat ip).map (fun n => (n : ℚ))
  | some f =>
    if ip = [] && f = [] then none
    else
      match digitsToNat ip, digitsToNat f with
      | some n, some m => some ((n : ℚ) + (m : ℚ) / (10 : ℚ) ^ f.length)
      | _, _ => none

/-- Strip leading and trailing whitespace from a character list. -/
def trimChars (cs : List Char) : List Char :=
  ((cs.dropWhile Char.isWhitespace).reverse.dropWhile Char.isWhitespace).reverse

/-- Python's `float(s)` on finite decimal literals: strip whitespace, then
an optionally signed mantissa with an optional exponent; `none` models the
`ValueError` raised on anything else (e.g. `float('abc')`, `float('')`). -/
def pyFloat (s : String) : Option ℚ :=
  let cs := trimChars s.toList
  let (neg, cs) := parseSign cs
  let (mant, expPart) := splitOnChar (fun c => c = 'e' || c = 'E') cs
  let base? := parseUnsignedDec mant
  let scale? : Option ℚ :=
    match expPart with
    | none => some 1
    | some ecs =>
      let (eneg, ecs) := parseSign ecs
      if ecs = [] then none
      else (digitsToNat ecs).map (fun e => if eneg then ((10 : ℚ) ^ e)⁻¹ else (10 : ℚ) ^ e)
  match base?, scale? with
  | some b, some sc => some ((if neg then -b else b) * sc)
  | _, _ => none

/-- `float(data.get(key, 0))`: a missing key yields the integer `0`
(hence `0.0`); a present string goes through `float`, whose failure is a
raised `ValueError`, modelled as `Except.error`. -/
def numField (row : Row) (key : String) : Except String ℚ :=
  match List.lookup key row with
  | none => .ok 0
  | some s =>
    match pyFloat s with
    | some q => .ok q
    | none => .error ("could not convert string to float: " ++ s)

/-- One transaction/operation record (`Transaction` in the source). -/
structure Transaction where
  opDate : String
  opId : String
  opType : String
  fromVessel : String
  fromBatch : String
  toVessel : String
  toBatch : String
  net : ℚ
  lossGainAmount : ℚ
  lossGainReason : String
  winery : String
deriving DecidableEq, Repr

/-- `Transaction.__init__(data)`: string fields default to `''` when missing,
the two numeric fields go through `float(data.get(key, 0))`, which raises
(here: returns `Except.error`) on an unparsable string. -/
def Transaction.ofRow (row : Row) : Except String Transaction := do
  let net ← numField row "NET"
  let lossGain ← numField row "Loss/Gain Amount (gal)"
  pure
    { opDate := row.getStr "Op Date"
      opId := row.getStr "Op Id"
      opType := row.getStr "Op Type"
      fromVessel := row.getStr "From Vessel"
      fromBatch := row.getStr "From Batch"
      toVessel := row.getStr "To Vessel"
      toBatch := row.getStr "To Batch"
      net := net
      lossGainAmount := lossGain
      lossGainReason := row.getStr "Loss/Gain Reason"
      winery := row.getStr "Winery" }

/-- The per-batch lineage node (`BatchLineage` in the source);
`contributingBatches` models the Python dict `batch_name -> gallons`. -/
structure BatchLineage where
  batchName : String
  contributingBatches : List (String × ℚ)
  contributingTransactions : List Transaction
  outgoingTransactions : List Transaction
  currentVolume : ℚ
  isOnHand : Bool
  hasLeftInventory : Bool
deriving DecidableEq, Repr

/-- `BatchLineage.__init__`. -/
def BatchLineage.init (name : String) : BatchLineage :=
  { batchName := name
    contributingBatches := []
    contributingTransactions := []
    outgoingTransactions := []
    currentVolume := 0
    isOnHand := false
    hasLeftInventory := false }

/-- Dict update `m[k] = m.get(k, 0) + g` preserving insertion order: add to
an existing entry in place, otherwise append at the end. -/
def bumpContribution : List (String × ℚ) → String → ℚ → List (String × ℚ)
  | [], k, g => [(k, g)]
  | (k', v) :: rest, k, g =>
    if k' = k then (k', v + g) :: rest else (k', v) :: bumpContribution rest k g

/-- `BatchLineage.add_incoming_transaction`: the contribution edge is added
only for a non-empty source batch distinct from this batch; the transaction
itself is always appended to the incoming list. -/
def BatchLineage.addIncomingTransaction (l : BatchLineage) (t : Transaction)
    (gallons : ℚ) : BatchLineage :=
  let l' :=
    if t.fromBatch ≠ "" ∧ t.fromBatch ≠ l.batchName then
      { l with contributingBatches := bumpContribution l.contributingBatches t.fromBatch gallons }
    else l
  { l' with contributingTransactions := l'.contributingTransactions ++ [t] }

/-- `BatchLineage.add_outgoing_transaction`. -/
def BatchLineage.addOutgoingTransaction (l : BatchLineage) (t : Transaction) :
    BatchLineage :=
  { l with outgoingTransactions := l.outgoingTransactions ++ [t] }

/-- The analyzer's `batch_lineages` dict: batch name → lineage node. -/
abbrev LineageMap : Type := List (String × BatchLineage)

/-- Dict lookup `self.batch_lineages.get(name)`. -/
def findLineage : LineageMap → String → Option BatchLineage
  | [], _ => none
  | (k, v) :: rest, name => if k = name then some v else findLineage rest name

/-- Dict membership `name in self.batch_lineages`. -/
def containsBatch (st : LineageMap) (name : String) : Bool :=
  (findLineage st name).isSome

/-- In-place update of the entry under `name` (keys and order unchanged). -/
def updateLineage (st : LineageMap) (name : String)
    (f : BatchLineage → BatchLineage) : LineageMap :=
  st.map (fun p => if p.1 = name then (p.1, f p.2) else p)

/-- Adding a name to the first-pass batch set: skipped when empty
(Python truthiness) or already present. -/
def insertName (acc : List String) (n : String) : List String :=
  if n = "" ∨ n ∈ acc then acc else acc ++ [n]

/-- First pass of `_build_lineage`: the distinct non-empty batch names
appearing as source or destination, in order of first occurrence. -/
def allBatchNames (ts : List Transaction) : List String :=
  ts.foldl (fun acc t => insertName (insertName acc t.fromBatch) t.toBatch) []

/-- One empty `BatchLineage` per collected batch name. -/
def initLineages (ts : List Transaction) : LineageMap :=
  (allBatchNames ts).map (fun n => (n, BatchLineage.init n))

/-- Second-pass dispatch of `_build_lineage` for a single record. -/
def applyTransaction (st : LineageMap) (t : Transaction) : LineageMap :=
  if t.opType = "On-Hand" then
    if containsBatch st t.toBatch then
      updateLineage st t.toBatch (fun l => { l with isOnHand := true, currentVolume := t.net })
    else st
  else if t.opType = "Transfer" ∨ t.opType = "Blend" ∨ t.opType = "Receipt" then
    let st1 :=
      if t.toBatch ≠ "" ∧ containsBatch st t.toBatch then
        updateLineage st t.toBatch (fun l => l.addIncomingTransaction t t.net)
      else st
    if t.fromBatch ≠ "" ∧ containsBatch st1 t.fromBatch then
      updateLineage st1 t.fromBatch (fun l =>
        let l' := l.addOutgoingTransaction t
        if t.opType ≠ "Receipt" then { l' with hasLeftInventory := true } else l')
    else st1
  else if t.opType = "Adjustment" then
    if t.toBatch ≠ "" ∧ containsBatch st t.toBatch then
      updateLineage st t.toBatch (fun l => l.addIncomingTransaction t t.net)
    else st
  else st

/-- `_build_lineage`: pass 1 creates the empty nodes, pass 2 folds the
records in ledger order. -/
def buildLineage (ts : List Transaction) : LineageMap :=
  ts.foldl applyTransaction (initLineages ts)

/-- `get_batch_lineage`. -/
def getBatchLineage (st : LineageMap) (name : String) : Option BatchLineage :=
  findLineage st name

/-- `get_all_shipped_batches`. -/
def getAllShippedBatches (st : LineageMap) : List String :=
  (st.filter (fun p => p.2.hasLeftInventory && !p.2.isOnHand)).map Prod.fst

/-- The dict returned by `get_full_lineage_tree`, as a tree: either a
`cycle_detected` leaf, a `not_found` leaf, or a node carrying the scalar
attributes and the expanded contributing sub-trees, each paired with its
`gallons_contributed` weight. -/
inductive LineageTree where
  | cycleLeaf (batchName : String)
  | notFoundLeaf (batchName : String)
  | node (batchName : String) (currentVolume : ℚ) (isOnHand : Bool)
      (hasLeftInventory : Bool) (contributing : List (ℚ × LineageTree))
deriving Repr

/-- One output row of `export_lineage_to_csv`. -/
structure LineageEdgeRow where
  destinationBatch : String
  sourceBatch : String
  gallonsContributed : ℚ
  destinationCurrentVolume : ℚ
  destinationIsOnHand : Bool
  destinationHasLeft : Bool
deriving DecidableEq, Repr

/-- The filter step of `export_lineage_to_csv`: `'on-hand'` skips batches
not on hand, `'shipped'` skips batches that have not left inventory, any
other filter (or none) keeps everything. -/
def batchFilterKeeps (batchFilter : Option String) (l : BatchLineage) : Bool :=
  if batchFilter = some "on-hand" ∧ ¬l.isOnHand then false
  else if batchFilter = some "shipped" ∧ ¬l.hasLeftInventory then false
  else true

/-- The rows `export_lineage_to_csv` emits for one batch: one row per
contributing entry, or a single origin row (empty source, zero gallons)
when there are none. -/
def edgeRowsFor (p : String × BatchLineage) : List LineageEdgeRow :=
  if p.2.contributingBatches ≠ [] then
    p.2.contributingBatches.map (fun cg =>
      { destinationBatch := p.1
        sourceBatch := cg.1
        gallonsContributed := cg.2
        destinationCurrentVolume := p.2.currentVolume
        destinationIsOnHand := p.2.isOnHand
        destinationHasLeft := p.2.hasLeftInventory })
  else
    [{ destinationBatch := p.1
       sourceBatch := ""
       gallonsContributed := 0
       destinationCurrentVolume := p.2.currentVolume
       destinationIsOnHand := p.2.isOnHand
       destinationHasLeft := p.2.hasLeftInventory }]

/-- The rows `export_lineage_to_csv` accumulates over the whole map: the
rows of every batch that passes the filter, in map order. -/
def exportLineageRows (st : LineageMap) (batchFilter : Option String) :
    List LineageEdgeRow :=
  st.foldl (fun rows p =>
    if batchFilterKeeps batchFilter p.2 then rows ++ edgeRowsFor p
    else rows) []

/-- A ledger record with the given operation type, endpoints and net volume
(the fields no claim depends on are left empty / zero). -/
def mkTrans (opType fromBatch toBatch : String) (net : ℚ) : Transaction :=
  { opDate := ""
    opId := ""
    opType := opType
    fromVessel := ""
    fromBatch := fromBatch
    toVessel := ""
    toBatch := toBatch
    net := net
    lossGainAmount := 0
    lossGainReason := ""
    winery := "" }

/-- The keys of the lineage map. -/
def namesOf (st : LineageMap) : List String := st.map Prod.fst

/-- The effect of one second-pass dispatch step on the entry stored under a
single key `x`, expressed as a function of that entry alone. -/
def applyAt (t : Transaction) (x : String) (o : Option BatchLineage) :
    Option BatchLineage :=
  if t.opType = "On-Hand" then
    if t.toBatch = x then
      o.map (fun l => { l with isOnHand := true, currentVolume := t.net })
    else o
  else if t.opType = "Transfer" ∨ t.opType = "Blend" ∨ t.opType = "Receipt" then
    let o1 :=
      if t.toBatch = x ∧ t.toBatch ≠ "" then
        o.map (fun l => l.addIncomingTransaction t t.net)
      else o
    if t.fromBatch = x ∧ t.fromBatch ≠ "" then
      o1.map (fun l =>
        let l' := l.addOutgoingTransaction t
        if t.opType ≠ "Receipt" then { l' with hasLeftInventory := true } else l')
    else o1
  else if t.opType = "Adjustment" then
    if t.toBatch = x ∧ t.toBatch ≠ "" then
      o.map (fun l => l.addIncomingTransaction t t.net)
    else o
  else o

/-- Lookup after an in-place update. -/
theorem findLineage_update (st : LineageMap) (name x : String)
    (f : BatchLineage → BatchLineage) :
    findLineage (updateLineage st name f) x =
      if name = x then (findLineage st x).map f else findLineage st x := by
  induction st with
  | nil =>
    simp only [updateLineage, List.map_nil, findLineage]
    split <;> rfl
  | cons p rest ih =>
    obtain ⟨k, v⟩ := p
    simp only [updateLineage, List.map_cons] at ih ⊢
    by_cases hk : k = name
    · rw [if_pos hk]
      by_cases hx : k = x
      · subst hk
        subst hx
        simp [findLineage]
      · subst hk
        simp only [findLineage, if_neg hx]
        rw [ih, if_neg hx]
    · rw [if_neg (show ¬((k, v).1 = name) from hk)]
      simp only [findLineage]
      by_cases hx : k = x
      · subst hx
        rw [if_neg (fun h : name = k => hk h.symm)]
        simp [findLineage]
      · simp only [if_neg hx]
        rw [ih]

/-- Membership is unchanged by in-place updates. -/
theorem containsBatch_update (st : LineageMap) (name y : String)
    (f : BatchLineage → BatchLineage) :
    containsBatch (updateLineage st name f) y = containsBatch st y := by
  simp only [containsBatch, findLineage_update]
  split <;> cases findLineage st y <;> rfl

/-- A key that is not in the map looks up to `none`. -/
theorem findLineage_eq_none_of_not_contains (st : LineageMap) (y : String)
    (h : ¬containsBatch st y = true) : findLineage st y = none := by
  simp only [containsBatch] at h
  cases hfy : findLineage st y with
  | none => rfl
  | some l => rw [hfy] at h; simp at h

/-- `applyAt` on a present entry, as a total function on the entry. -/
def applyAtFn (t : Transaction) (x : String) (l : BatchLineage) : BatchLineage :=
  if t.opType = "On-Hand" then
    if t.toBatch = x then { l with isOnHand := true, currentVolume := t.net } else l
  else if t.opType = "Transfer" ∨ t.opType = "Blend" ∨ t.opType = "Receipt" then
    let l1 :=
      if t.toBatch = x ∧ t.toBatch ≠ "" then l.addIncomingTransaction t t.net else l
    if t.fromBatch = x ∧ t.fromBatch ≠ "" then
      let l' := l1.addOutgoingTransaction t
      if t.opType ≠ "Receipt" then { l' with hasLeftInventory := true } else l'
    else l1
  else if t.opType = "Adjustment" then
    if t.toBatch = x ∧ t.toBatch ≠ "" then l.addIncomingTransaction t t.net else l
  else l

/-- The three-record ledger realizing the contribution cycle A→B→C→A
(each batch lists the previous one as a contributor). -/
def cycleLedger : List Transaction :=
  [mkTrans "Transfer" "A" "B" 1, mkTrans "Transfer" "B" "C" 1,
   mkTrans "Transfer" "C" "A" 1]

/-- A diamond ledger: A feeds both B and C, which both feed D, so the
expansion of D reaches A along two distinct branches. -/
def diamondLedger : List Transaction :=
  [mkTrans "Transfer" "A" "B" 5, mkTrans "Transfer" "A" "C" 3,
   mkTrans "Transfer" "B" "D" 5, mkTrans "Transfer" "C" "D" 3]

/-- A two-record mutual contribution: X and Y each contribute to the other,
so expanding X repeats X along its own root-to-leaf path. -/
def pairLedger : List Transaction :=
  [mkTrans "Transfer" "X" "Y" 2, mkTrans "Transfer" "Y" "X" 2]

/-- A ledger whose batch A both leaves inventory (Transfer source) and is
recorded on hand (On-Hand destination). -/
def mixedLedger : List Transaction :=
  [mkTrans "Transfer" "A" "B" 5, mkTrans "On-Hand" "" "A" 2]

/-- Lookup at `x` after the guarded update pattern used by the Transfer,
Blend, Receipt and Adjustment branches: the guard's membership test makes
the whole step act on the entry under `x` alone. -/
theorem findLineage_condUpdate (st : LineageMap) (n x : String)
    (f : BatchLineage → BatchLineage) :
    findLineage (if n ≠ "" ∧ containsBatch st n = true then updateLineage st n f else st) x
      = if n = x ∧ n ≠ "" then (findLineage st x).map f else findLineage st x := by
  by_cases hA : n ≠ "" ∧ containsBatch st n = true
  · rw [if_pos hA, findLineage_update]
    by_cases hnx : n = x
    · rw [if_pos hnx, if_pos ⟨hnx, hA.1⟩]
    · rw [if_neg hnx, if_neg (fun hc => hnx hc.1)]
  · rw [if_neg hA]
    by_cases hc : n = x ∧ n ≠ ""
    · rw [if_pos hc]
      have hn : findLineage st x = none := by
        rcases not_and_or.mp hA with he | hnc
        · exact absurd hc.2 he
        · rw [← hc.1]
          exact findLineage_eq_none_of_not_contains st n hnc
      rw [hn]
      rfl
    · rw [if_neg hc]

/-- Lookup at `x` after the guarded update pattern used by the On-Hand
branch (membership test only, no non-emptiness test). -/
theorem findLineage_condUpdateMem (st : LineageMap) (n x : String)
    (f : BatchLineage → BatchLineage) :
    findLineage (if containsBatch st n = true then updateLineage st n f else st) x
      = if n = x then (findLineage st x).map f else findLineage st x := by
  by_cases hA : containsBatch st n = true
  · rw [if_pos hA, findLineage_update]
  · rw [if_neg hA]
    by_cases hnx : n = x
    · rw [if_pos hnx]
      have hn : findLineage st x = none := by
        rw [← hnx]
        exact findLineage_eq_none_of_not_contains st n hA
      rw [hn]
      rfl
    · rw [if_neg hnx]

/-- One dispatch step, projected to the entry under `x`: the whole-map
update of `applyTransaction` acts on each key's entry independently. -/
theorem findLineage_applyTransaction (st : LineageMap) (t : Transaction)
    (x : String) :
    findLineage (applyTransaction st t) x = applyAt t x (findLineage st x) := by
  simp only [applyTransaction, applyAt]
  by_cases h1 : t.opType = "On-Hand"
  · simp only [if_pos h1]
    exact findLineage_condUpdateMem st t.toBatch x _
  · simp only [if_neg h1]
    by_cases h2 : t.opType = "Transfer" ∨ t.opType = "Blend" ∨ t.opType = "Receipt"
    · simp only [if_pos h2]
      rw [findLineage_condUpdate, findLineage_condUpdate]
    · simp only [if_neg h2]
      by_cases h3 : t.opType = "Adjustment"
      · simp only [if_pos h3]
        exact findLineage_condUpdate st t.toBatch x _
      · simp only [if_neg h3]

/-- One step never turns an absent entry into a present one. -/
theorem applyAt_none (t : Transaction) (x : String) : applyAt t x none = none := by
  simp only [applyAt]
  split_ifs <;> rfl

/-- One step on a present entry acts as `applyAtFn`. -/
theorem applyAt_some (t : Transaction) (x : String) (l : BatchLineage) :
    applyAt t x (some l) = some (applyAtFn t x l) := by
  simp only [applyAt, applyAtFn]
  split_ifs <;> rfl

/-- A fold of steps starting from an absent entry stays absent. -/
theorem foldl_applyAt_none (ts : List Transaction) (x : String) :
    ts.foldl (fun o t => applyAt t x o) none = none := by
  induction ts with
  | nil => rfl
  | cons t rest ih =>
    simp only [List.foldl_cons, applyAt_none]
    exact ih

/-- No dispatch step changes a node's batch name. -/
theorem applyAtFn_batchName (t : Transaction) (x : String) (l : BatchLineage) :
    (applyAtFn t x l).batchName = l.batchName := by
  simp only [applyAtFn, BatchLineage.addIncomingTransaction,
    BatchLineage.addOutgoingTransaction]
  split_ifs <;> rfl

/-- Only an On-Hand record aimed at `x` touches the on-hand flag; it sets it. -/
theorem applyAtFn_isOnHand (t : Transaction) (x : String) (l : BatchLineage) :
    (applyAtFn t x l).isOnHand
      = if t.opType = "On-Hand" ∧ t.toBatch = x then true else l.isOnHand := by
  simp only [applyAtFn, BatchLineage.addIncomingTransaction,
    BatchLineage.addOutgoingTransaction]
  split_ifs <;> simp_all

/-- Only an On-Hand record aimed at `x` touches the current volume; it
overwrites it with the record's net volume. -/
theorem applyAtFn_currentVolume (t : Transaction) (x : String) (l : BatchLineage) :
    (applyAtFn t x l).currentVolume
      = if t.opType = "On-Hand" ∧ t.toBatch = x then t.net else l.currentVolume := by
  simp only [applyAtFn, BatchLineage.addIncomingTransaction,
    BatchLineage.addOutgoingTransaction]
  split_ifs <;> simp_all

/-- The has-left flag is set exactly by Transfer/Blend records leaving `x`,
and never cleared. -/
theorem applyAtFn_hasLeft (t : Transaction) (x : String) (l : BatchLineage) :
    (applyAtFn t x l).hasLeftInventory
      = if (t.opType = "Transfer" ∨ t.opType = "Blend" ∨ t.opType = "Receipt")
            ∧ (t.fromBatch = x ∧ t.fromBatch ≠ "") ∧ t.opType ≠ "Receipt"
        then true else l.hasLeftInventory := by
  simp only [applyAtFn, BatchLineage.addIncomingTransaction,
    BatchLineage.addOutgoingTransaction]
  split_ifs <;> (try simp_all) <;> tauto

/-- How one step changes the contribution map of the entry under `x`. -/
theorem applyAtFn_contributingBatches (t : Transaction) (x : String) (l : BatchLineage) :
    (applyAtFn t x l).contributingBatches
      = if ((t.opType = "Transfer" ∨ t.opType = "Blend" ∨ t.opType = "Receipt")
              ∨ t.opType = "Adjustment")
            ∧ (t.toBatch = x ∧ t.toBatch ≠ "")
            ∧ (t.fromBatch ≠ "" ∧ t.fromBatch ≠ l.batchName)
        then bumpContribution l.contributingBatches t.fromBatch t.net
        else l.contributingBatches := by
  simp only [applyAtFn, BatchLineage.addIncomingTransaction,
    BatchLineage.addOutgoingTransaction]
  split_ifs <;> simp_all

/-- How one step changes the incoming transaction list of the entry under `x`. -/
theorem applyAtFn_contribTrans (t : Transaction) (x : String) (l : BatchLineage) :
    (applyAtFn t x l).contributingTransactions
      = if ((t.opType = "Transfer" ∨ t.opType = "Blend" ∨ t.opType = "Receipt")
              ∨ t.opType = "Adjustment")
            ∧ (t.toBatch = x ∧ t.toBatch ≠ "")
        then l.contributingTransactions ++ [t]
        else l.contributingTransactions := by
  simp only [applyAtFn, BatchLineage.addIncomingTransaction,
    BatchLineage.addOutgoingTransaction]
  split_ifs <;> simp_all

/-- How one step changes the outgoing transaction list of the entry under `x`. -/
theorem applyAtFn_outgoing (t : Transaction) (x : String) (l : BatchLineage) :
    (applyAtFn t x l).outgoingTransactions
      = if (t.opType = "Transfer" ∨ t.opType = "Blend" ∨ t.opType = "Receipt")
            ∧ (t.fromBatch = x ∧ t.fromBatch ≠ "")
        then l.outgoingTransactions ++ [t]
        else l.outgoingTransactions := by
  simp only [applyAtFn, BatchLineage.addIncomingTransaction,
    BatchLineage.addOutgoingTransaction]
  split_ifs <;> simp_all

/-- The whole pass-2 fold, projected to the entry under `x`. -/
theorem findLineage_foldl (ts : List Transaction) (st : LineageMap) (x : String) :
    findLineage (ts.foldl applyTransaction st) x
      = ts.foldl (fun o t => applyAt t x o) (findLineage st x) := by
  induction ts generalizing st with
  | nil => rfl
  | cons t rest ih =>
    simp only [List.foldl_cons]
    rw [ih, findLineage_applyTransaction]

/-- Membership after one first-pass insertion step. -/
theorem mem_insertName (acc : List String) (n x : String) :
    x ∈ insertName acc n ↔ x ∈ acc ∨ (x = n ∧ n ≠ "") := by
  unfold insertName
  by_cases hc : n = "" ∨ n ∈ acc
  · rw [if_pos hc]
    constructor
    · exact Or.inl
    · rintro (hx | ⟨rfl, hne⟩)
      · exact hx
      · rcases hc with he | hm
        · exact absurd he hne
        · exact hm
  · rw [if_neg hc]
    push_neg at hc
    simp only [List.mem_append, List.mem_singleton]
    constructor
    · rintro (hx | rfl)
      · exact Or.inl hx
      · exact Or.inr ⟨rfl, hc.1⟩
    · rintro (hx | ⟨rfl, _⟩)
      · exact Or.inl hx
      · exact Or.inr rfl

/-- Membership in the first-pass fold over a ledger suffix. -/
theorem mem_foldl_insertName (ts : List Transaction) (acc : List String) (x : String) :
    x ∈ ts.foldl (fun acc t => insertName (insertName acc t.fromBatch) t.toBatch) acc
      ↔ x ∈ acc ∨ (x ≠ "" ∧ ∃ t ∈ ts, t.fromBatch = x ∨ t.toBatch = x) := by
  induction ts generalizing acc with
  | nil => simp
  | cons t rest ih =>
    simp only [List.foldl_cons, ih, mem_insertName, List.mem_cons]
    constructor
    · rintro (((hx | ⟨rfl, hne⟩) | ⟨rfl, hne⟩) | ⟨hne, u, hu, hor⟩)
      · exact Or.inl hx
      · exact Or.inr ⟨hne, t, Or.inl rfl, Or.inl rfl⟩
      · exact Or.inr ⟨hne, t, Or.inl rfl, Or.inr rfl⟩
      · exact Or.inr ⟨hne, u, Or.inr hu, hor⟩
    · rintro (hx | ⟨hne, u, (rfl | hu), hor⟩)
      · exact Or.inl (Or.inl (Or.inl hx))
      · rcases hor with hf | ht
        · exact Or.inl (Or.inl (Or.inr ⟨hf.symm, hf ▸ hne⟩))
        · exact Or.inl (Or.inr ⟨ht.symm, ht ▸ hne⟩)
      · exact Or.inr ⟨hne, u, hu, hor⟩

/-- A name is collected by pass 1 exactly when it is non-empty and occurs as
an endpoint of some record. -/
theorem mem_allBatchNames (ts : List Transaction) (x : String) :
    x ∈ allBatchNames ts
      ↔ x ≠ "" ∧ ∃ t ∈ ts, t.fromBatch = x ∨ t.toBatch = x := by
  rw [allBatchNames, mem_foldl_insertName]
  simp

/-- Lookup into the map as pass 1 creates it. -/
theorem findLineage_map_init (names : List String) (x : String) :
    findLineage (names.map (fun n => (n, BatchLineage.init n))) x
      = if x ∈ names then some (BatchLineage.init x) else none := by
  induction names with
  | nil => simp [findLineage]
  | cons n rest ih =>
    simp only [List.map_cons, findLineage]
    by_cases hn : n = x
    · subst hn
      simp
    · rw [if_neg hn, ih]
      have hxn : ¬(x = n) := fun h => hn h.symm
      by_cases hx : x ∈ rest
      · simp [hx, List.mem_cons, hxn]
      · simp [hx, List.mem_cons, hxn]

/-- Lookup into the result of pass 1. -/
theorem findLineage_initLineages (ts : List Transaction) (x : String) :
    findLineage (initLineages ts) x
      = if x ∈ allBatchNames ts then some (BatchLineage.init x) else none := by
  rw [initLineages, findLineage_map_init]

/-- In-place updates do not change the key list. -/
theorem namesOf_update (st : LineageMap) (n : String)
    (f : BatchLineage → BatchLineage) :
    namesOf (updateLineage st n f) = namesOf st := by
  induction st with
  | nil => rfl
  | cons p rest ih =>
    simp only [namesOf, updateLineage, List.map_cons] at ih ⊢
    have hhead : (if p.1 = n then (p.1, f p.2) else p).1 = p.1 := by
      split <;> rfl
    rw [hhead, ih]

/-- One dispatch step does not change the key list. -/
theorem namesOf_applyTransaction (st : LineageMap) (t : Transaction) :
    namesOf (applyTransaction st t) = namesOf st := by
  simp only [applyTransaction]
  split_ifs <;> simp [namesOf_update]

/-- The key list of the built map is exactly the pass-1 name list. -/
theorem namesOf_buildLineage (ts : List Transaction) :
    namesOf (buildLineage ts) = allBatchNames ts := by
  rw [buildLineage]
  have hfold : ∀ st : LineageMap,
      namesOf (ts.foldl applyTransaction st) = namesOf st := by
    induction ts with
    | nil => intro st; rfl
    | cons t rest ih =>
      intro st
      simp only [List.foldl_cons]
      rw [ih, namesOf_applyTransaction]
  rw [hfold]
  simp only [namesOf, initLineages, List.map_map]
  exact List.map_id _ ▸ rfl

/-- Pass-1 insertion preserves distinctness of the collected names. -/
theorem nodup_insertName (acc : List String) (n : String) (h : acc.Nodup) :
    (insertName acc n).Nodup := by
  unfold insertName
  split
  · exact h
  · rename_i hc
    push_neg at hc
    simp [List.nodup_append, h, hc.2]

/-- The pass-1 name list is duplicate-free. -/
theorem nodup_allBatchNames (ts : List Transaction) : (allBatchNames ts).Nodup := by
  have hfold : ∀ acc : List String, acc.Nodup →
      (ts.foldl (fun acc t => insertName (insertName acc t.fromBatch) t.toBatch) acc).Nodup := by
    induction ts with
    | nil => intro acc h; exact h
    | cons t rest ih =>
      intro acc h
      simp only [List.foldl_cons]
      exact ih _ (nodup_insertName _ _ (nodup_insertName _ _ h))
  exact hfold [] List.nodup_nil

/-- For a map with duplicate-free keys, a name survives a filter-then-keys
pass exactly when its entry satisfies the filter. -/
theorem mem_map_fst_filter (st : LineageMap) (p : String × BatchLineage → Bool)
    (hnd : (namesOf st).Nodup) (x : String) :
    x ∈ (st.filter p).map Prod.fst
      ↔ ∃ l, findLineage st x = some l ∧ p (x, l) = true := by
  induction st with
  | nil => simp [findLineage]
  | cons q rest ih =>
    obtain ⟨k, v⟩ := q
    simp only [namesOf, List.map_cons, List.nodup_cons] at hnd
    have ihr := ih hnd.2
    by_cases hk : k = x
    · subst hk
      simp only [findLineage, if_pos rfl]
      constructor
      · intro hmem
        by_cases hp : p (k, v) = true
        · exact ⟨v, rfl, hp⟩
        · rw [List.filter_cons_of_neg (by simpa using hp)] at hmem
          have hsub : k ∈ rest.map Prod.fst :=
            ((List.filter_sublist rest).map Prod.fst).mem hmem
          exact absurd hsub (by simpa [namesOf] using hnd.1)
      · rintro ⟨l, hl, hp⟩
        obtain rfl : v = l := by simpa using hl
        rw [List.filter_cons_of_pos hp]
        simp
    · simp only [findLineage, if_neg hk]
      by_cases hp : p (k, v) = true
      · rw [List.filter_cons_of_pos hp]
        simp only [List.map_cons, List.mem_cons]
        rw [← ihr]
        constructor
        · rintro (rfl | hm)
          · exact absurd rfl hk
          · exact hm
        · exact Or.inr
      · rw [List.filter_cons_of_neg (by simpa using hp)]
        exact ihr

/-- The On-Hand records of a ledger aimed at batch `x`, in ledger order. -/
def onHandsTo (ts : List Transaction) (x : String) : List Transaction :=
  ts.filter (fun t => t.opType == "On-Hand" && t.toBatch == x)

/-- Last-writer-wins for the on-hand fields along the pass-2 fold: the final
on-hand flag and current volume of `x`'s entry are dictated by the last
On-Hand record aimed at `x`, and untouched when there is none. -/
theorem foldl_applyAt_onHandFields (ts : List Transaction) (x : String)
    (l : BatchLineage) :
    ∃ l', ts.foldl (fun o t => applyAt t x o) (some l) = some l' ∧
      ((onHandsTo ts x).getLast? = none →
        l'.isOnHand = l.isOnHand ∧ l'.currentVolume = l.currentVolume) ∧
      (∀ u, (onHandsTo ts x).getLast? = some u →
        l'.isOnHand = true ∧ l'.currentVolume = u.net) := by
  induction ts using List.reverseRecOn with
  | nil =>
    refine ⟨l, rfl, fun _ => ⟨rfl, rfl⟩, fun u hu => ?_⟩
    simp [onHandsTo] at hu
  | append_singleton ts t ih =>
    obtain ⟨l'', hfold, hnone, hsome⟩ := ih
    rw [List.foldl_append, hfold]
    simp only [List.foldl_cons, List.foldl_nil]
    rw [applyAt_some]
    refine ⟨applyAtFn t x l'', rfl, ?_, ?_⟩
    · intro hlast
      rw [onHandsTo, List.filter_append, List.filter_singleton] at hlast
      by_cases hb : (t.opType == "On-Hand" && t.toBatch == x) = true
      · rw [hb, cond_true, List.getLast?_concat] at hlast
        exact absurd hlast (by simp)
      · have hbf : (t.opType == "On-Hand" && t.toBatch == x) = false := by
          cases hval : (t.opType == "On-Hand" && t.toBatch == x) with
          | true => exact absurd hval hb
          | false => rfl
        have hcond : ¬(t.opType = "On-Hand" ∧ t.toBatch = x) := by
          simpa [Bool.and_eq_true, beq_iff_eq] using hb
        rw [applyAtFn_isOnHand, applyAtFn_currentVolume, if_neg hcond, if_neg hcond]
        apply hnone
        rw [hbf, cond_false, List.append_nil] at hlast
        exact hlast
    · intro u hlast
      rw [onHandsTo, List.filter_append, List.filter_singleton] at hlast
      by_cases hb : (t.opType == "On-Hand" && t.toBatch == x) = true
      · have hcond : t.opType = "On-Hand" ∧ t.toBatch = x := by
          simpa [Bool.and_eq_true, beq_iff_eq] using hb
        rw [hb, cond_true, List.getLast?_concat] at hlast
        obtain rfl : u = t := by simpa using hlast.symm
        rw [applyAtFn_isOnHand, applyAtFn_currentVolume, if_pos hcond, if_pos hcond]
        exact ⟨rfl, rfl⟩
      · have hbf : (t.opType == "On-Hand" && t.toBatch == x) = false := by
          cases hval : (t.opType == "On-Hand" && t.toBatch == x) with
          | true => exact absurd hval hb
          | false => rfl
        have hcond : ¬(t.opType = "On-Hand" ∧ t.toBatch = x) := by
          simpa [Bool.and_eq_true, beq_iff_eq] using hb
        rw [applyAtFn_isOnHand, applyAtFn_currentVolume, if_neg hcond, if_neg hcond]
        apply hsome
        rw [hbf, cond_false, List.append_nil] at hlast
        exact hlast

/-- The has-left flag, once set, survives the rest of the fold. -/
theorem foldl_applyAt_hasLeft_mono (ts : List Transaction) (x : String) :
    ∀ l : BatchLineage, l.hasLeftInventory = true →
      ∃ l', ts.foldl (fun o t => applyAt t x o) (some l) = some l' ∧
        l'.hasLeftInventory = true := by
  induction ts with
  | nil => exact fun l hl => ⟨l, rfl, hl⟩
  | cons t rest ih =>
    intro l hl
    simp only [List.foldl_cons]
    rw [applyAt_some]
    apply ih
    rw [applyAtFn_hasLeft]
    split <;> simp [hl]

/-- A Transfer or Blend record leaving `x` anywhere in the ledger suffix
sets the has-left flag of `x`'s entry for good. -/
theorem foldl_applyAt_hasLeft_set (ts : List Transaction) (x : String) (hx : x ≠ "") :
    ∀ l : BatchLineage,
      (∃ t ∈ ts, (t.opType = "Transfer" ∨ t.opType = "Blend") ∧ t.fromBatch = x) →
      ∃ l', ts.foldl (fun o t => applyAt t x o) (some l) = some l' ∧
        l'.hasLeftInventory = true := by
  induction ts with
  | nil =>
    rintro l ⟨t, ht, _⟩
    simp at ht
  | cons t rest ih =>
    rintro l ⟨u, hu, hop, hfrom⟩
    simp only [List.foldl_cons]
    rw [applyAt_some]
    rcases List.mem_cons.mp hu with rfl | hurest
    · have hcond : (u.opType = "Transfer" ∨ u.opType = "Blend" ∨ u.opType = "Receipt")
          ∧ (u.fromBatch = x ∧ u.fromBatch ≠ "") ∧ u.opType ≠ "Receipt" := by
        rcases hop with hT | hB
        · exact ⟨Or.inl hT, ⟨hfrom, by rw [hfrom]; exact hx⟩, by rw [hT]; simp⟩
        · exact ⟨Or.inr (Or.inl hB), ⟨hfrom, by rw [hfrom]; exact hx⟩, by rw [hB]; simp⟩
      exact foldl_applyAt_hasLeft_mono rest x _
        (by rw [applyAtFn_hasLeft, if_pos hcond])
    · exact ih _ ⟨u, hurest, hop, hfrom⟩

/-- Keys present after a contribution bump. -/
theorem mem_keys_bumpContribution (m : List (String × ℚ)) (k y : String) (g : ℚ) :
    y ∈ (bumpContribution m k g).map Prod.fst ↔ y ∈ m.map Prod.fst ∨ y = k := by
  induction m with
  | nil => simp [bumpContribution]
  | cons p rest ih =>
    obtain ⟨k', v⟩ := p
    rw [bumpContribution]
    by_cases hk : k' = k
    · rw [if_pos hk]
      subst hk
      simp only [List.map_cons, List.mem_cons]
      tauto
    · rw [if_neg hk]
      simp only [List.map_cons, List.mem_cons, ih]
      tauto

/-- Along the fold, `x`'s entry keeps its batch name and its contribution
map never acquires the key `x` itself or the empty string. -/
theorem foldl_applyAt_selfFree (ts : List Transaction) (x : String) :
    ∀ l : BatchLineage,
      l.batchName = x →
      x ∉ l.contributingBatches.map Prod.fst →
      "" ∉ l.contributingBatches.map Prod.fst →
      ∃ l', ts.foldl (fun o t => applyAt t x o) (some l) = some l' ∧
        l'.batchName = x ∧
        x ∉ l'.contributingBatches.map Prod.fst ∧
        "" ∉ l'.contributingBatches.map Prod.fst := by
  induction ts with
  | nil => exact fun l h1 h2 h3 => ⟨l, rfl, h1, h2, h3⟩
  | cons t rest ih =>
    intro l h1 h2 h3
    simp only [List.foldl_cons]
    rw [applyAt_some]
    apply ih
    · rw [applyAtFn_batchName]
      exact h1
    · rw [applyAtFn_contributingBatches]
      split
      · rename_i hcond
        rw [mem_keys_bumpContribution]
        rintro (hm | hk)
        · exact h2 hm
        · exact hcond.2.2.2 (hk.symm.trans h1.symm)
      · exact h2
    · rw [applyAtFn_contributingBatches]
      split
      · rename_i hcond
        rw [mem_keys_bumpContribution]
        rintro (hm | hk)
        · exact h3 hm
        · exact hcond.2.2.1 hk.symm
      · exact h3

/-- A `findLineage` hit means the name is among the map's keys. -/
theorem mem_namesOf_of_findLineage (st : LineageMap) (name : String)
    (l : BatchLineage) (hf : findLineage st name = some l) : name ∈ namesOf st := by
  induction st with
  | nil => simp [findLineage] at hf
  | cons p rest ih =>
    rw [findLineage] at hf
    by_cases hp : p.1 = name
    · simp [namesOf, hp]
    · simp [hp] at hf
      simp [namesOf] at ih ⊢
      right
      simpa [namesOf] using ih hf

mutual
/-- `get_full_lineage_tree(batch_name, visited)`: depth-first expansion with
a per-path visited set; a name already visited on the current path becomes a
`cycle_detected` leaf, an unknown name a `not_found` leaf. -/
def getFullLineageTree (st : LineageMap) (batchName : String)
    (visited : List String) : LineageTree :=
  if h : batchName ∈ visited then .cycleLeaf batchName
  else
    match hf : findLineage st batchName with
    | none => .notFoundLeaf batchName
    | some l =>
      .node batchName l.currentVolume l.isOnHand l.hasLeftInventory
        (expandContributing st l.contributingBatches (batchName :: visited))
termination_by (((namesOf st).toFinset \ visited.toFinset).card, 0)
decreasing_by
  simp_wf
  apply Prod.Lex.left
  have hmem : batchName ∈ (namesOf st).toFinset := by
    simp only [List.mem_toFinset]
    exact mem_namesOf_of_findLineage st batchName l hf
  rw [Finset.sdiff_insert]
  apply Finset.card_erase_lt_of_mem
  simp only [Finset.mem_sdiff, List.mem_toFinset]
  exact ⟨by simpa using hmem, by simpa using h⟩

/-- The loop over `lineage.contributing_batches.items()`: each child call
receives the path's accumulated visited set (`visited.copy()` per branch). -/
def expandContributing (st : LineageMap) (contribs : List (String × ℚ))
    (visited : List String) : List (ℚ × LineageTree) :=
  match contribs with
  | [] => []
  | (c, g) :: rest =>
    (g, getFullLineageTree st c visited) :: expandContributing st rest visited
termination_by (((namesOf st).toFinset \ visited.toFinset).card, contribs.length + 1)
decreasing_by
  · simp_wf
    apply Prod.Lex.right
    omega
  · simp_wf
    apply Prod.Lex.right
    omega
end

/-- The ledger used for the C9 edge cases: a record whose source and
destination batch names are equal, and one whose source batch is empty. -/
def selfLedger : List Transaction :=
  [mkTrans "Transfer" "B" "B" 5, mkTrans "Adjustment" "" "B" 4]

/-- An operation type outside the fixed vocabulary leaves the projected
entry untouched. -/
theorem applyAt_unknown (t : Transaction) (x : String) (o : Option BatchLineage)
    (h1 : t.opType ≠ "On-Hand")
    (h2 : ¬(t.opType = "Transfer" ∨ t.opType = "Blend" ∨ t.opType = "Receipt"))
    (h3 : t.opType ≠ "Adjustment") :
    applyAt t x o = o := by
  simp only [applyAt, if_neg h1, if_neg h2, if_neg h3]

/-- C1, counterexample: a row whose numeric field holds the unparsable
string makes Transaction construction fail (Python's `float` raises
`ValueError`), instead of producing a value object with the field 0. -/
theorem c1_counterexample :
    Transaction.ofRow [("NET", "abc")]
        = Except.error "could not convert string to float: abc"
      ∧ Transaction.ofRow [("Loss/Gain Amount (gal)", "oops")]
        = Except.error "could not convert string to float: oops" := by
  constructor <;> rfl

/-- C1, amended: a missing numeric field silently defaults to 0, but a
present unparsable numeric field makes `Transaction` construction propagate
an error (the raised `ValueError`), never a zero-valued field. -/
theorem c1_amended (row : Row) :
    (∀ s, List.lookup "NET" row = some s → pyFloat s = none →
      ∃ e, Transaction.ofRow row = Except.error e)
    ∧ (List.lookup "NET" row = none →
        List.lookup "Loss/Gain Amount (gal)" row = none →
        ∃ tr, Transaction.ofRow row = Except.ok tr
          ∧ tr.net = 0 ∧ tr.lossGainAmount = 0) := by
  constructor
  · intro s hs hp
    refine ⟨"could not convert string to float: " ++ s, ?_⟩
    simp [Transaction.ofRow, numField, hs, hp, Bind.bind, Except.bind]
  · intro h1 h2
    refine ⟨{ opDate := row.getStr "Op Date", opId := row.getStr "Op Id",
              opType := row.getStr "Op Type", fromVessel := row.getStr "From Vessel",
              fromBatch := row.getStr "From Batch", toVessel := row.getStr "To Vessel",
              toBatch := row.getStr "To Batch", net := 0, lossGainAmount := 0,
              lossGainReason := row.getStr "Loss/Gain Reason",
              winery := row.getStr "Winery" }, ?_, rfl, rfl⟩
    simp [Transaction.ofRow, numField, h1, h2, Bind.bind, Except.bind, Pure.pure,
      Except.pure]

/-- C1, witness for the amended claim at concrete rows. -/
theorem c1_witness :
    (∃ e, Transaction.ofRow [("NET", "abc")] = Except.error e)
    ∧ (∃ tr, Transaction.ofRow [("Winery", "W")] = Except.ok tr
        ∧ tr.net = 0 ∧ tr.lossGainAmount = 0) :=
  ⟨(c1_amended [("NET", "abc")]).1 "abc" rfl rfl,
   (c1_amended [("Winery", "W")]).2 rfl rfl⟩

/-- C2, counterexample: a record of unknown operation type is not a
complete no-op, because pass 1 still registers its endpoints; with the
record present, `get_batch_lineage('A')` finds a (fresh, empty) lineage,
while with it omitted the lookup misses. -/
theorem c2_counterexample :
    getBatchLineage (buildLineage [mkTrans "Bogus" "A" "B" 1]) "A"
      ≠ getBatchLineage (buildLineage []) "A" := by
  decide

/-- C2, amended: a record of unknown operation type contributes nothing in
pass 2 (no edge, no flag, no list append), so the lineage of each of its
endpoint batches is unchanged versus omitting the record, provided that
endpoint also occurs in some other record (otherwise only an empty lineage
node is created for it by pass 1). -/
theorem c2_amended (pre post : List Transaction) (r : Transaction)
    (hop : r.opType ∉ ["On-Hand", "Transfer", "Blend", "Receipt", "Adjustment"])
    (X : String) (hend : X = r.fromBatch ∨ X = r.toBatch)
    (hX : X ∈ allBatchNames (pre ++ post)) :
    getBatchLineage (buildLineage (pre ++ r :: post)) X
      = getBatchLineage (buildLineage (pre ++ post)) X := by
  have h1 : r.opType ≠ "On-Hand" := by
    intro h
    exact hop (by simp [h])
  have h2 : ¬(r.opType = "Transfer" ∨ r.opType = "Blend" ∨ r.opType = "Receipt") := by
    rintro (h | h | h) <;> exact hop (by simp [h])
  have h3 : r.opType ≠ "Adjustment" := by
    intro h
    exact hop (by simp [h])
  have hX1 : X ∈ allBatchNames (pre ++ r :: post) := by
    rw [mem_allBatchNames] at hX ⊢
    obtain ⟨hne, t, ht, hor⟩ := hX
    refine ⟨hne, t, ?_, hor⟩
    simp only [List.mem_append, List.mem_cons] at ht ⊢
    tauto
  rw [getBatchLineage, getBatchLineage, buildLineage, buildLineage,
    findLineage_foldl, findLineage_foldl,
    findLineage_initLineages, findLineage_initLineages, if_pos hX, if_pos hX1]
  simp only [List.foldl_append, List.foldl_cons]
  rw [applyAt_unknown r X _ h1 h2 h3]

/-- C2, witness for the amended claim: a Bogus record between a Transfer
and nothing else leaves A's lineage unchanged. -/
theorem c2_witness :
    getBatchLineage
        (buildLineage ([mkTrans "Transfer" "A" "B" 5] ++ mkTrans "Bogus" "A" "B" 1 :: [])) "A"
      = getBatchLineage (buildLineage ([mkTrans "Transfer" "A" "B" 5] ++ [])) "A" :=
  c2_amended [mkTrans "Transfer" "A" "B" 5] [] (mkTrans "Bogus" "A" "B" 1)
    (by decide) "A" (Or.inl rfl) (by decide)

/-- C5: after ingestion, a batch targeted by at least one On-Hand record is
flagged on hand and its current volume is the net volume of the last such
record in ledger order — regardless of any other records touching it. -/
theorem c5_onHand_lastWriter (ts : List Transaction) (X : String) (hX : X ≠ "")
    (t0 : Transaction) (ht0 : t0 ∈ ts) (hop : t0.opType = "On-Hand")
    (hto : t0.toBatch = X) :
    ∃ l u, getBatchLineage (buildLineage ts) X = some l
      ∧ (onHandsTo ts X).getLast? = some u
      ∧ l.isOnHand = true ∧ l.currentVolume = u.net := by
  have hmem : X ∈ allBatchNames ts :=
    (mem_allBatchNames ts X).mpr ⟨hX, t0, ht0, Or.inr hto⟩
  have hfind : findLineage (buildLineage ts) X
      = ts.foldl (fun o t => applyAt t X o) (some (BatchLineage.init X)) := by
    rw [buildLineage, findLineage_foldl, findLineage_initLineages, if_pos hmem]
  obtain ⟨l', hfold, hnone, hsome⟩ := foldl_applyAt_onHandFields ts X (BatchLineage.init X)
  cases hcase : (onHandsTo ts X).getLast? with
  | none =>
    exfalso
    have hnil : onHandsTo ts X = [] := List.getLast?_eq_none_iff.mp hcase
    have ht0f : t0 ∈ onHandsTo ts X := by
      rw [onHandsTo, List.mem_filter]
      exact ⟨ht0, by simp [hop, hto]⟩
    rw [hnil] at ht0f
    simp at ht0f
  | some u =>
    exact ⟨l', u, by rw [getBatchLineage, hfind, hfold], rfl, hsome u hcase⟩

/-- C5, witness: two On-Hand records for X; the later one (net 12.5) wins. -/
theorem c5_witness :
    ∃ l u, getBatchLineage
        (buildLineage [mkTrans "On-Hand" "" "X" 7, mkTrans "On-Hand" "" "X" (25/2)]) "X" = some l
      ∧ (onHandsTo [mkTrans "On-Hand" "" "X" 7, mkTrans "On-Hand" "" "X" (25/2)] "X").getLast?
          = some u
      ∧ l.isOnHand = true ∧ l.currentVolume = u.net :=
  c5_onHand_lastWriter _ "X" (by decide) (mkTrans "On-Hand" "" "X" 7) (by simp)
    rfl rfl

/-- C6: two Transfer records with the same source and destination
accumulate additively in the destination's contribution map. -/
theorem c6_accumulation (A B : String) (g1 g2 : ℚ)
    (hA : A ≠ "") (hB : B ≠ "") (hAB : A ≠ B) :
    ∃ l, getBatchLineage (buildLineage
        [mkTrans "Transfer" A B g1, mkTrans "Transfer" A B g2]) B = some l
      ∧ List.lookup A l.contributingBatches = some (g1 + g2) := by
  have hmem : B ∈ allBatchNames [mkTrans "Transfer" A B g1, mkTrans "Transfer" A B g2] :=
    (mem_allBatchNames _ B).mpr ⟨hB, mkTrans "Transfer" A B g1, by simp, Or.inr rfl⟩
  have hfind : getBatchLineage (buildLineage
      [mkTrans "Transfer" A B g1, mkTrans "Transfer" A B g2]) B
      = some (applyAtFn (mkTrans "Transfer" A B g2) B
          (applyAtFn (mkTrans "Transfer" A B g1) B (BatchLineage.init B))) := by
    rw [getBatchLineage, buildLineage, findLineage_foldl, findLineage_initLineages,
      if_pos hmem]
    simp only [List.foldl_cons, List.foldl_nil]
    rw [applyAt_some, applyAt_some]
  have h1 : (applyAtFn (mkTrans "Transfer" A B g1) B (BatchLineage.init B)).contributingBatches
      = [(A, g1)] := by
    rw [applyAtFn_contributingBatches]
    simp [mkTrans, BatchLineage.init, hA, hB, hAB, bumpContribution]
  have h1n : (applyAtFn (mkTrans "Transfer" A B g1) B (BatchLineage.init B)).batchName = B := by
    rw [applyAtFn_batchName]
    rfl
  have h2 : (applyAtFn (mkTrans "Transfer" A B g2) B
      (applyAtFn (mkTrans "Transfer" A B g1) B (BatchLineage.init B))).contributingBatches
      = [(A, g1 + g2)] := by
    rw [applyAtFn_contributingBatches, h1, h1n]
    simp [mkTrans, hA, hB, hAB, bumpContribution]
  refine ⟨_, hfind, ?_⟩
  rw [h2]
  simp [List.lookup]

/-- C6, witness: nets 5.0 and 3.0 from A into B give contribution 8.0. -/
theorem c6_witness :
    ∃ l, getBatchLineage (buildLineage
        [mkTrans "Transfer" "A" "B" 5, mkTrans "Transfer" "A" "B" 3]) "B" = some l
      ∧ List.lookup "A" l.contributingBatches = some 8 := by
  obtain ⟨l, hl, hv⟩ := c6_accumulation "A" "B" 5 3 (by decide) (by decide) (by decide)
  refine ⟨l, hl, ?_⟩
  rw [hv]
  norm_num

/-- C7: a Receipt leaving A is appended to A's outgoing list but does not
set A's has-left flag, while a Transfer (or Blend) with the same source
does set it. -/
theorem c7_receipt_exemption (A B : String) (net : ℚ) (hA : A ≠ "") :
    (∃ l, getBatchLineage (buildLineage [mkTrans "Receipt" A B net]) A = some l
      ∧ l.outgoingTransactions = [mkTrans "Receipt" A B net]
      ∧ l.hasLeftInventory = false)
    ∧ (∃ l, getBatchLineage (buildLineage [mkTrans "Transfer" A B net]) A = some l
        ∧ l.hasLeftInventory = true)
    ∧ (∃ l, getBatchLineage (buildLineage [mkTrans "Blend" A B net]) A = some l
        ∧ l.hasLeftInventory = true) := by
  have hfind : ∀ op : String, getBatchLineage (buildLineage [mkTrans op A B net]) A
      = some (applyAtFn (mkTrans op A B net) A (BatchLineage.init A)) := by
    intro op
    have hmem : A ∈ allBatchNames [mkTrans op A B net] :=
      (mem_allBatchNames _ A).mpr ⟨hA, mkTrans op A B net, by simp, Or.inl rfl⟩
    rw [getBatchLineage, buildLineage, findLineage_foldl, findLineage_initLineages,
      if_pos hmem]
    simp only [List.foldl_cons, List.foldl_nil]
    rw [applyAt_some]
  refine ⟨⟨_, hfind "Receipt", ?_, ?_⟩, ⟨_, hfind "Transfer", ?_⟩, ⟨_, hfind "Blend", ?_⟩⟩
  · rw [applyAtFn_outgoing]
    simp [mkTrans, BatchLineage.init, hA]
  · rw [applyAtFn_hasLeft]
    simp [mkTrans, BatchLineage.init]
  · rw [applyAtFn_hasLeft]
    simp [mkTrans, BatchLineage.init, hA]
  · rw [applyAtFn_hasLeft]
    simp [mkTrans, BatchLineage.init, hA]

/-- C7, witness at concrete names and volume. -/
theorem c7_witness :
    (∃ l, getBatchLineage (buildLineage [mkTrans "Receipt" "A" "B" 5]) "A" = some l
      ∧ l.outgoingTransactions = [mkTrans "Receipt" "A" "B" 5]
      ∧ l.hasLeftInventory = false)
    ∧ (∃ l, getBatchLineage (buildLineage [mkTrans "Transfer" "A" "B" 5]) "A" = some l
        ∧ l.hasLeftInventory = true)
    ∧ (∃ l, getBatchLineage (buildLineage [mkTrans "Blend" "A" "B" 5]) "A" = some l
        ∧ l.hasLeftInventory = true) :=
  c7_receipt_exemption "A" "B" 5 (by decide)

/-- C8: `get_all_shipped_batches` returns exactly the names whose entry has
the has-left flag set and the on-hand flag clear; in particular a batch
that sources at least one Transfer and is never an On-Hand destination is
classified as shipped. -/
theorem c8_shipped (ts : List Transaction) (x : String) :
    (x ∈ getAllShippedBatches (buildLineage ts)
      ↔ ∃ l, findLineage (buildLineage ts) x = some l
          ∧ l.hasLeftInventory = true ∧ l.isOnHand = false)
    ∧ ((x ≠ "" ∧ (∃ t ∈ ts, t.opType = "Transfer" ∧ t.fromBatch = x)
        ∧ ∀ t ∈ ts, ¬(t.opType = "On-Hand" ∧ t.toBatch = x)) →
      x ∈ getAllShippedBatches (buildLineage ts)) := by
  have hnd : (namesOf (buildLineage ts)).Nodup := by
    rw [namesOf_buildLineage]
    exact nodup_allBatchNames ts
  have hmain : x ∈ getAllShippedBatches (buildLineage ts)
      ↔ ∃ l, findLineage (buildLineage ts) x = some l
          ∧ l.hasLeftInventory = true ∧ l.isOnHand = false := by
    rw [getAllShippedBatches, mem_map_fst_filter _ _ hnd]
    constructor
    · rintro ⟨l, hl, hp⟩
      simp only [Bool.and_eq_true, Bool.not_eq_true'] at hp
      exact ⟨l, hl, hp.1, hp.2⟩
    · rintro ⟨l, hl, hL, hO⟩
      exact ⟨l, hl, by simp [hL, hO]⟩
  refine ⟨hmain, ?_⟩
  rintro ⟨hx, ⟨t0, ht0, hopT, hfromT⟩, hnoOH⟩
  have hmem : x ∈ allBatchNames ts :=
    (mem_allBatchNames ts x).mpr ⟨hx, t0, ht0, Or.inl hfromT⟩
  have hfind : findLineage (buildLineage ts) x
      = ts.foldl (fun o t => applyAt t x o) (some (BatchLineage.init x)) := by
    rw [buildLineage, findLineage_foldl, findLineage_initLineages, if_pos hmem]
  obtain ⟨l1, hf1, hleft⟩ :=
    foldl_applyAt_hasLeft_set ts x hx (BatchLineage.init x) ⟨t0, ht0, Or.inl hopT, hfromT⟩
  obtain ⟨l2, hf2, hnone, _⟩ := foldl_applyAt_onHandFields ts x (BatchLineage.init x)
  have hempty : (onHandsTo ts x).getLast? = none := by
    have hnil : onHandsTo ts x = [] := by
      rw [onHandsTo, List.filter_eq_nil_iff]
      intro t ht
      simp only [Bool.and_eq_true, beq_iff_eq, not_and]
      intro hot htb
      exact absurd ⟨hot, htb⟩ (hnoOH t ht)
    rw [hnil]
    rfl
  have hl12 : l1 = l2 := by
    rw [hf1] at hf2
    exact Option.some_inj.mp hf2
  rw [hmain]
  refine ⟨l1, hfind.trans hf1, hleft, ?_⟩
  rw [hl12]
  exact (hnone hempty).1

/-- C8, witness: the source of a single Transfer with no On-Hand record is
among the shipped batches. -/
theorem c8_witness :
    "A" ∈ getAllShippedBatches (buildLineage [mkTrans "Transfer" "A" "B" 5]) :=
  (c8_shipped [mkTrans "Transfer" "A" "B" 5] "A").2
    ⟨by decide, ⟨mkTrans "Transfer" "A" "B" 5, by simp, rfl, rfl⟩, by decide⟩

/-- The entry stored for batch B after ingesting `selfLedger`. -/
def selfEntry : BatchLineage :=
  { batchName := "B"
    contributingBatches := []
    contributingTransactions := selfLedger
    outgoingTransactions := [mkTrans "Transfer" "B" "B" 5]
    currentVolume := 0
    isOnHand := false
    hasLeftInventory := true }

/-- C9: no batch's contribution map ever lists the batch itself or the
empty string, even for records whose source equals the destination or is
empty; such records are still appended to the incoming transaction list. -/
theorem c9_no_self_contribution (ts : List Transaction) (B : String)
    (l : BatchLineage) (h : findLineage (buildLineage ts) B = some l) :
    (l.batchName = B
      ∧ B ∉ l.contributingBatches.map Prod.fst
      ∧ "" ∉ l.contributingBatches.map Prod.fst)
    ∧ (∃ l', findLineage (buildLineage selfLedger) "B" = some l'
        ∧ l'.contributingBatches = []
        ∧ l'.contributingTransactions = selfLedger) := by
  constructor
  · by_cases hmem : B ∈ allBatchNames ts
    · have hfind : findLineage (buildLineage ts) B
          = ts.foldl (fun o t => applyAt t B o) (some (BatchLineage.init B)) := by
        rw [buildLineage, findLineage_foldl, findLineage_initLineages, if_pos hmem]
      obtain ⟨l', hf, hbn, hxk, hek⟩ :=
        foldl_applyAt_selfFree ts B (BatchLineage.init B) rfl
          (by simp [BatchLineage.init]) (by simp [BatchLineage.init])
      rw [hfind, hf] at h
      obtain rfl : l' = l := Option.some_inj.mp h
      exact ⟨hbn, hxk, hek⟩
    · exfalso
      rw [buildLineage, findLineage_foldl, findLineage_initLineages, if_neg hmem,
        foldl_applyAt_none] at h
      exact Option.noConfusion h
  · exact ⟨selfEntry, by decide, rfl, rfl⟩

/-- C9, witness at the `selfLedger` instance. -/
theorem c9_witness :
    (selfEntry.batchName = "B"
      ∧ "B" ∉ selfEntry.contributingBatches.map Prod.fst
      ∧ "" ∉ selfEntry.contributingBatches.map Prod.fst)
    ∧ (∃ l', findLineage (buildLineage selfLedger) "B" = some l'
        ∧ l'.contributingBatches = []
        ∧ l'.contributingTransactions = selfLedger) :=
  c9_no_self_contribution selfLedger "B" selfEntry (by decide)

/-- Unfolding: a batch already on the current path yields the cycle leaf. -/
theorem getFullLineageTree_visited (st : LineageMap) (n : String)
    (v : List String) (h : n ∈ v) :
    getFullLineageTree st n v = .cycleLeaf n := by
  rw [getFullLineageTree.eq_def, dif_pos h]

/-- Unfolding: a fresh batch found in the graph expands to a node over its
contributing entries, with the batch added to the path's visited set. -/
theorem getFullLineageTree_found (st : LineageMap) (n : String)
    (v : List String) (l : BatchLineage) (h : n ∉ v)
    (hf : findLineage st n = some l) :
    getFullLineageTree st n v
      = .node n l.currentVolume l.isOnHand l.hasLeftInventory
          (expandContributing st l.contributingBatches (n :: v)) := by
  rw [getFullLineageTree.eq_def, dif_neg h]
  split
  · rename_i heq
    rw [hf] at heq
    exact Option.noConfusion heq
  · rename_i l' heq
    rw [hf] at heq
    obtain rfl : l = l' := Option.some_inj.mp heq
    rfl

/-- Unfolding: no contributing entries, no sub-trees. -/
theorem expandContributing_nil (st : LineageMap) (v : List String) :
    expandContributing st [] v = [] := by
  rw [expandContributing.eq_def]

/-- Unfolding: each contributing entry becomes a sub-tree paired with its
gallons, every child receiving the same path-visited set. -/
theorem expandContributing_cons (st : LineageMap) (c : String) (g : ℚ)
    (rest : List (String × ℚ)) (v : List String) :
    expandContributing st ((c, g) :: rest) v
      = (g, getFullLineageTree st c v) :: expandContributing st rest v := by
  rw [expandContributing.eq_def]

/-- C3: a batch name already on the current root-to-leaf path is reported
as a cycle leaf instead of being recursed into; on the concrete contribution
cycle A→B→C→A the traversal terminates with a cycle marker at depth 3. -/
theorem c3_cycle_safety (st : LineageMap) (name : String) (visited : List String)
    (h : name ∈ visited) :
    getFullLineageTree st name visited = .cycleLeaf name
    ∧ getFullLineageTree (buildLineage cycleLedger) "A" []
        = .node "A" 0 false true
            [(1, .node "C" 0 false true
              [(1, .node "B" 0 false true [(1, .cycleLeaf "A")])])] := by
  refine ⟨getFullLineageTree_visited st name visited h, ?_⟩
  have e1 : getFullLineageTree (buildLineage cycleLedger) "A" ["B", "C", "A"]
      = .cycleLeaf "A" := getFullLineageTree_visited _ _ _ (by decide)
  have e2 : getFullLineageTree (buildLineage cycleLedger) "B" ["C", "A"]
      = .node "B" 0 false true [(1, .cycleLeaf "A")] := by
    rw [getFullLineageTree_found _ _ _
        ⟨"B", [("A", 1)], [mkTrans "Transfer" "A" "B" 1],
          [mkTrans "Transfer" "B" "C" 1], 0, false, true⟩
        (by decide) (by decide)]
    show LineageTree.node "B" 0 false true
      (expandContributing (buildLineage cycleLedger) [("A", 1)] ["B", "C", "A"]) = _
    rw [expandContributing_cons, expandContributing_nil, e1]
  have e3 : getFullLineageTree (buildLineage cycleLedger) "C" ["A"]
      = .node "C" 0 false true [(1, .node "B" 0 false true [(1, .cycleLeaf "A")])] := by
    rw [getFullLineageTree_found _ _ _
        ⟨"C", [("B", 1)], [mkTrans "Transfer" "B" "C" 1],
          [mkTrans "Transfer" "C" "A" 1], 0, false, true⟩
        (by decide) (by decide)]
    show LineageTree.node "C" 0 false true
      (expandContributing (buildLineage cycleLedger) [("B", 1)] ["C", "A"]) = _
    rw [expandContributing_cons, expandContributing_nil, e2]
  rw [getFullLineageTree_found _ _ _
      ⟨"A", [("C", 1)], [mkTrans "Transfer" "C" "A" 1],
        [mkTrans "Transfer" "A" "B" 1], 0, false, true⟩
      (by decide) (by decide)]
  show LineageTree.node "A" 0 false true
    (expandContributing (buildLineage cycleLedger) [("C", 1)] ["A"]) = _
  rw [expandContributing_cons, expandContributing_nil, e3]

/-- C3, witness instance of the cycle-guard clause. -/
theorem c3_witness :
    getFullLineageTree [] "Z" ["Z"] = .cycleLeaf "Z"
    ∧ getFullLineageTree (buildLineage cycleLedger) "A" []
        = .node "A" 0 false true
            [(1, .node "C" 0 false true
              [(1, .node "B" 0 false true [(1, .cycleLeaf "A")])])] :=
  c3_cycle_safety [] "Z" ["Z"] (by decide)

/-- C4: cycle detection is per branch: in the diamond ledger, batch A is
expanded to a full node in both the B branch and the sibling C branch of
D's tree (no cycle marker), while in the two-cycle ledger the marker is
emitted exactly for the batch repeating along the same root-to-leaf path. -/
theorem c4_per_branch_visited :
    getFullLineageTree (buildLineage diamondLedger) "D" []
      = .node "D" 0 false false
          [(5, .node "B" 0 false true [(5, .node "A" 0 false true [])]),
           (3, .node "C" 0 false true [(3, .node "A" 0 false true [])])]
    ∧ getFullLineageTree (buildLineage pairLedger) "X" []
      = .node "X" 0 false true
          [(2, .node "Y" 0 false true [(2, .cycleLeaf "X")])] := by
  constructor
  · have eA1 : getFullLineageTree (buildLineage diamondLedger) "A" ["B", "D"]
        = .node "A" 0 false true [] := by
      rw [getFullLineageTree_found _ _ _
          ⟨"A", [], [], [mkTrans "Transfer" "A" "B" 5, mkTrans "Transfer" "A" "C" 3],
            0, false, true⟩ (by decide) (by decide)]
      show LineageTree.node "A" 0 false true
        (expandContributing (buildLineage diamondLedger) [] ["A", "B", "D"]) = _
      rw [expandContributing_nil]
    have eA2 : getFullLineageTree (buildLineage diamondLedger) "A" ["C", "D"]
        = .node "A" 0 false true [] := by
      rw [getFullLineageTree_found _ _ _
          ⟨"A", [], [], [mkTrans "Transfer" "A" "B" 5, mkTrans "Transfer" "A" "C" 3],
            0, false, true⟩ (by decide) (by decide)]
      show LineageTree.node "A" 0 false true
        (expandContributing (buildLineage diamondLedger) [] ["A", "C", "D"]) = _
      rw [expandContributing_nil]
    have eB : getFullLineageTree (buildLineage diamondLedger) "B" ["D"]
        = .node "B" 0 false true [(5, .node "A" 0 false true [])] := by
      rw [getFullLineageTree_found _ _ _
          ⟨"B", [("A", 5)], [mkTrans "Transfer" "A" "B" 5],
            [mkTrans "Transfer" "B" "D" 5], 0, false, true⟩ (by decide) (by decide)]
      show LineageTree.node "B" 0 false true
        (expandContributing (buildLineage diamondLedger) [("A", 5)] ["B", "D"]) = _
      rw [expandContributing_cons, expandContributing_nil, eA1]
    have eC : getFullLineageTree (buildLineage diamondLedger) "C" ["D"]
        = .node "C" 0 false true [(3, .node "A" 0 false true [])] := by
      rw [getFullLineageTree_found _ _ _
          ⟨"C", [("A", 3)], [mkTrans "Transfer" "A" "C" 3],
            [mkTrans "Transfer" "C" "D" 3], 0, false, true⟩ (by decide) (by decide)]
      show LineageTree.node "C" 0 false true
        (expandContributing (buildLineage diamondLedger) [("A", 3)] ["C", "D"]) = _
      rw [expandContributing_cons, expandContributing_nil, eA2]
    rw [getFullLineageTree_found _ _ _
        ⟨"D", [("B", 5), ("C", 3)],
          [mkTrans "Transfer" "B" "D" 5, mkTrans "Transfer" "C" "D" 3], [],
          0, false, false⟩ (by decide) (by decide)]
    show LineageTree.node "D" 0 false false
      (expandContributing (buildLineage diamondLedger) [("B", 5), ("C", 3)] ["D"]) = _
    rw [expandContributing_cons, expandContributing_cons, expandContributing_nil, eB, eC]
  · have eX1 : getFullLineageTree (buildLineage pairLedger) "X" ["Y", "X"]
        = .cycleLeaf "X" := getFullLineageTree_visited _ _ _ (by decide)
    have eY : getFullLineageTree (buildLineage pairLedger) "Y" ["X"]
        = .node "Y" 0 false true [(2, .cycleLeaf "X")] := by
      rw [getFullLineageTree_found _ _ _
          ⟨"Y", [("X", 2)], [mkTrans "Transfer" "X" "Y" 2],
            [mkTrans "Transfer" "Y" "X" 2], 0, false, true⟩ (by decide) (by decide)]
      show LineageTree.node "Y" 0 false true
        (expandContributing (buildLineage pairLedger) [("X", 2)] ["Y", "X"]) = _
      rw [expandContributing_cons, expandContributing_nil, eX1]
    rw [getFullLineageTree_found _ _ _
        ⟨"X", [("Y", 2)], [mkTrans "Transfer" "Y" "X" 2],
          [mkTrans "Transfer" "X" "Y" 2], 0, false, true⟩ (by decide) (by decide)]
    show LineageTree.node "X" 0 false true
      (expandContributing (buildLineage pairLedger) [("Y", 2)] ["X"]) = _
    rw [expandContributing_cons, expandContributing_nil, eY]

/-- The export accumulator, as a flat concatenation over the map. -/
theorem exportLineageRows_eq_flatMap (st : LineageMap) (f : Option String) :
    exportLineageRows st f
      = st.flatMap (fun p =>
          if batchFilterKeeps f p.2 then edgeRowsFor p else []) := by
  rw [exportLineageRows]
  suffices h : ∀ (l : LineageMap) (acc : List LineageEdgeRow),
      l.foldl (fun rows p =>
          if batchFilterKeeps f p.2 then rows ++ edgeRowsFor p else rows) acc
        = acc ++ l.flatMap (fun p =>
            if batchFilterKeeps f p.2 then edgeRowsFor p else []) by
    simpa using h st []
  intro l
  induction l with
  | nil => simp
  | cons p rest ih =>
    intro acc
    simp only [List.foldl_cons, List.flatMap_cons]
    by_cases hk : batchFilterKeeps f p.2 = true
    · rw [if_pos hk, if_pos hk, ih, List.append_assoc]
    · rw [if_neg hk, if_neg hk, ih]
      simp

/-- The 'shipped' filter of the edge export tests the has-left flag only. -/
theorem batchFilterKeeps_shipped (l : BatchLineage) :
    batchFilterKeeps (some "shipped") l = l.hasLeftInventory := by
  by_cases hL : l.hasLeftInventory = true <;> simp [batchFilterKeeps, hL]

/-- Every row a batch emits carries that batch as destination, and every
batch emits at least one row. -/
theorem edgeRowsFor_dest (k : String) (l : BatchLineage) :
    (∀ row ∈ edgeRowsFor (k, l), row.destinationBatch = k)
      ∧ edgeRowsFor (k, l) ≠ [] := by
  rw [edgeRowsFor]
  split
  · rename_i hne
    constructor
    · intro row hr
      obtain ⟨cg, _, rfl⟩ := List.mem_map.mp hr
      rfl
    · simpa using hne
  · constructor
    · intro row hr
      obtain rfl := List.mem_singleton.mp hr
      rfl
    · simp

/-- For a map with duplicate-free keys, lookup hits are exactly the pairs. -/
theorem findLineage_eq_some_iff_mem (st : LineageMap)
    (hnd : (namesOf st).Nodup) (x : String) (l : BatchLineage) :
    findLineage st x = some l ↔ (x, l) ∈ st := by
  induction st with
  | nil => simp [findLineage]
  | cons q rest ih =>
    obtain ⟨k, v⟩ := q
    simp only [namesOf, List.map_cons, List.nodup_cons] at hnd
    have ihr := ih hnd.2
    simp only [findLineage, List.mem_cons]
    by_cases hk : k = x
    · subst hk
      rw [if_pos rfl]
      constructor
      · intro hv
        exact Or.inl (by rw [Option.some_inj.mp hv])
      · rintro (hpair | hm)
        · injection hpair with h1 h2
          rw [h2]
        · exfalso
          have hin : k ∈ namesOf rest := by
            rw [namesOf]
            exact List.mem_map.mpr ⟨(k, l), hm, rfl⟩
          exact hnd.1 (by simpa [namesOf] using hin)
    · rw [if_neg hk]
      rw [ihr]
      constructor
      · exact Or.inr
      · rintro (hpair | hm)
        · exact absurd (congrArg Prod.fst hpair).symm hk
        · exact hm

/-- C10: with the 'shipped' filter, the edge export emits rows for exactly
the destination batches whose has-left flag is set — including batches also
flagged on hand — so its destination set can strictly contain
`get_all_shipped_batches`, as the concrete mixed ledger shows. -/
theorem c10_shipped_export_filter (ts : List Transaction) (x : String) :
    ((∃ row ∈ exportLineageRows (buildLineage ts) (some "shipped"),
        row.destinationBatch = x)
      ↔ ∃ l, findLineage (buildLineage ts) x = some l
          ∧ l.hasLeftInventory = true)
    ∧ ("A" ∈ (exportLineageRows (buildLineage mixedLedger) (some "shipped")).map
          (fun r => r.destinationBatch)
        ∧ "A" ∉ getAllShippedBatches (buildLineage mixedLedger)) := by
  have hnd : (namesOf (buildLineage ts)).Nodup := by
    rw [namesOf_buildLineage]
    exact nodup_allBatchNames ts
  constructor
  · rw [exportLineageRows_eq_flatMap]
    constructor
    · rintro ⟨row, hrow, hdest⟩
      obtain ⟨p, hp, hrowp⟩ := List.mem_flatMap.mp hrow
      obtain ⟨k, l⟩ := p
      by_cases hk : batchFilterKeeps (some "shipped") l = true
      · rw [if_pos hk] at hrowp
        obtain rfl : k = x := by
          rw [← hdest]
          exact ((edgeRowsFor_dest k l).1 row hrowp).symm
        refine ⟨l, (findLineage_eq_some_iff_mem _ hnd _ _).mpr hp, ?_⟩
        rw [← batchFilterKeeps_shipped]
        exact hk
      · rw [if_neg hk] at hrowp
        simp at hrowp
    · rintro ⟨l, hl, hL⟩
      have hmem : (x, l) ∈ buildLineage ts :=
        (findLineage_eq_some_iff_mem _ hnd _ _).mp hl
      have hk : batchFilterKeeps (some "shipped") l = true := by
        rw [batchFilterKeeps_shipped]
        exact hL
      obtain ⟨row, hrow⟩ :=
        List.exists_mem_of_ne_nil _ (edgeRowsFor_dest x l).2
      refine ⟨row, List.mem_flatMap.mpr ⟨(x, l), hmem, ?_⟩,
        (edgeRowsFor_dest x l).1 row hrow⟩
      rw [if_pos hk]
      exact hrow
  · constructor
    · decide
    · decide
